import Mathlib

/-!
Shallow embedding of the repository `mspakkanen/integral-equations`
(`src/notebooks/Discretisation_of_integral_equations.ipynb`).

The notebook discretises the renewal-type integral equation
`f(t) = h(t) + ∫ f(t−u) λ(u) du` over a uniform grid with `N` steps of
size `Δ`, by two algorithms:

* Algorithm 1 (cell-14): a double python loop filling the array `fhat`
  of shape `(N+1) × (N+1)` and extracting its diagonal `f_loop`;
* Algorithm 2 (cell-16/18/20): vectorised kernel matrices `H` and `L`
  are precomputed, then a single loop fills the array `F` column by
  column; the diagonal is `f_vec`.

The embedding is exact-arithmetic over `ℚ`: python/numpy floats become
rationals, numpy arrays become total functions `ℕ → ℕ → ℚ` mutated by
explicit functional writes, and array slices are translated index by
index.  Kernel functions `h` and `lam` are opaque parameters
`ℚ → ℚ → ℚ`, matching the notebook where they are caller-supplied
callables.
-/

namespace IntegralEq

/-- A single in-place array write `F[n, i] = v`, as a functional update. -/
def writeAt (F : ℕ → ℕ → ℚ) (n i : ℕ) (v : ℚ) : ℕ → ℕ → ℚ :=
  fun m j => if m = n ∧ j = i then v else F m j

/-- `np.zeros(shape = (N + 1, N + 1))`: the all-zero initial array. -/
def zeroArr : ℕ → ℕ → ℚ := fun _ _ => 0

/-- The right-hand side assigned to `fhat[n, i]` in the body of the
double loop of Algorithm 1 (cell-14):
`h(n*Delta, n*Delta)` when `i = 0`, otherwise
`h(n*Delta, (n-i)*Delta) + np.sum(fhat[n, i - np.arange(1, i+1)]
  * lam(Delta * np.arange(1, i+1), (n-i)*Delta) * Delta)`.
The `k`-th summand (`k = 0..i−1`) pairs `fhat[n, i−(k+1)]` with
`lam((k+1)·Δ, (n−i)·Δ)·Δ`. -/
def loopBody (h lam : ℚ → ℚ → ℚ) (Δ : ℚ) (F : ℕ → ℕ → ℚ) (n i : ℕ) : ℚ :=
  if i = 0 then h ((n : ℚ) * Δ) ((n : ℚ) * Δ)
  else
    h ((n : ℚ) * Δ) (((n : ℚ) - (i : ℚ)) * Δ) +
      ∑ k ∈ Finset.range i,
        F n (i - 1 - k) * lam (((k : ℚ) + 1) * Δ) (((n : ℚ) - (i : ℚ)) * Δ) * Δ

/-- The inner loop `for i in range(m)` of Algorithm 1, acting on row `n`
of the state array: `innerLoop h lam Δ n m F` is the state after the
assignments `fhat[n, 0], …, fhat[n, m−1]` starting from state `F`. -/
def innerLoop (h lam : ℚ → ℚ → ℚ) (Δ : ℚ) (n : ℕ) : ℕ → (ℕ → ℕ → ℚ) → (ℕ → ℕ → ℚ)
  | 0, F => F
  | i + 1, F =>
      writeAt (innerLoop h lam Δ n i F) n i
        (loopBody h lam Δ (innerLoop h lam Δ n i F) n i)

/-- The outer loop `for n in range(m)` of Algorithm 1: each row `n` runs
its inner loop `for i in range(n + 1)`. -/
def outerLoop (h lam : ℚ → ℚ → ℚ) (Δ : ℚ) : ℕ → (ℕ → ℕ → ℚ) → (ℕ → ℕ → ℚ)
  | 0, F => F
  | n + 1, F => innerLoop h lam Δ n (n + 1) (outerLoop h lam Δ n F)

/-- The array `fhat` after Algorithm 1 has run all rows `n = 0..N`,
starting from initial array contents `F0` (the notebook uses zeros). -/
def fhat (h lam : ℚ → ℚ → ℚ) (Δ : ℚ) (N : ℕ) (F0 : ℕ → ℕ → ℚ) : ℕ → ℕ → ℚ :=
  outerLoop h lam Δ (N + 1) F0

/-- `f_loop = np.diagonal(fhat)`: the result vector of Algorithm 1. -/
def f_loop (h lam : ℚ → ℚ → ℚ) (Δ : ℚ) (N : ℕ) (n : ℕ) : ℚ :=
  fhat h lam Δ N zeroArr n n

/-- The matrix `H = h(A_H, B_H)` of cell-16, where
`A_H[n, i] = Δ·n` and `B_H = Δ · toeplitz(arange(0, N+1))`, i.e.
`B_H[n, i] = Δ·|n − i|`.  (The entries do not depend on `N`.) -/
def Hmat (h : ℚ → ℚ → ℚ) (Δ : ℚ) (n i : ℕ) : ℚ :=
  h ((n : ℚ) * Δ) (|(n : ℚ) - (i : ℚ)| * Δ)

/-- The matrix `L = lam(B_L, A_L) * Delta` of cell-18, where
`A_L[j, k] = Δ·j` and `B_L[j, k] = Δ · flip(arange(1, N+1))[k] = Δ·(N−k)`
for `k = 0..N−1`; hence `L[j, k] = lam((N−k)·Δ, j·Δ)·Δ`. -/
def Lmat (lam : ℚ → ℚ → ℚ) (Δ : ℚ) (N : ℕ) (j k : ℕ) : ℚ :=
  lam (((N : ℚ) - (k : ℚ)) * Δ) ((j : ℚ) * Δ) * Δ

/-- `F = np.zeros(...); F[:, 0] = H[:, 0]` (cell-20): column 0 of the
block array is initialised from column 0 of `H`; rows are `0..N`. -/
def blockInit (h : ℚ → ℚ → ℚ) (Δ : ℚ) (N : ℕ) (F0 : ℕ → ℕ → ℚ) : ℕ → ℕ → ℚ :=
  fun n j => if j = 0 ∧ n ≤ N then Hmat h Δ n 0 else F0 n j

/-- One iteration `i` of the single loop of Algorithm 2 (cell-20):
`B = F[(i+1):(N+1), 0:(i+1)] * L[0:(N−i), (N−i−1):(N+1)]` followed by
`F[(i+1):(N+1), i+1] = H[(i+1):(N+1), i+1] + np.sum(B, axis = -1)`.
Row `n` of the written slice corresponds to slice row `n − (i+1)`, and
slice column `c` of the `L` window is array column `N−i−1+c` (the slice
end `N+1` is clipped by numpy to `L`'s actual width `N`). -/
def blockStep (h lam : ℚ → ℚ → ℚ) (Δ : ℚ) (N : ℕ) (F : ℕ → ℕ → ℚ) (i : ℕ) :
    ℕ → ℕ → ℚ :=
  fun n j =>
    if j = i + 1 ∧ i + 1 ≤ n ∧ n ≤ N then
      Hmat h Δ n (i + 1) +
        ∑ c ∈ Finset.range (i + 1),
          F n c * Lmat lam Δ N (n - (i + 1)) (N - i - 1 + c)
    else F n j

/-- The state of Algorithm 2's array after `m` iterations of its loop,
starting from initial array contents `F0` (the notebook uses zeros). -/
def blockRun (h lam : ℚ → ℚ → ℚ) (Δ : ℚ) (N : ℕ) (F0 : ℕ → ℕ → ℚ) :
    ℕ → (ℕ → ℕ → ℚ)
  | 0 => blockInit h Δ N F0
  | i + 1 => blockStep h lam Δ N (blockRun h lam Δ N F0 i) i

/-- The array `F` after Algorithm 2 has run its full loop `for i in range(N)`. -/
def Fmat (h lam : ℚ → ℚ → ℚ) (Δ : ℚ) (N : ℕ) (F0 : ℕ → ℕ → ℚ) : ℕ → ℕ → ℚ :=
  blockRun h lam Δ N F0 N

/-- `f_vec = np.diagonal(F)`: the result vector of Algorithm 2. -/
def f_vec (h lam : ℚ → ℚ → ℚ) (Δ : ℚ) (N : ℕ) (n : ℕ) : ℚ :=
  Fmat h lam Δ N zeroArr n n

/-- The value `fhat[n, i]` as a standalone recurrence in `i` (row `n`
reads only earlier entries of row `n`, so the row is a well-defined
function of `n`, `Δ`, `h` and `lam` alone); proved below to coincide
with both algorithms' arrays on the meaningful region `i ≤ n ≤ N`. -/
def fhatRec (h lam : ℚ → ℚ → ℚ) (Δ : ℚ) (n : ℕ) : ℕ → ℚ
  | 0 => h ((n : ℚ) * Δ) ((n : ℚ) * Δ)
  | i + 1 =>
      h ((n : ℚ) * Δ) (((n : ℚ) - ((i : ℚ) + 1)) * Δ) +
        ∑ k ∈ Finset.range (i + 1),
          fhatRec h lam Δ n (i - k) * lam (((k : ℚ) + 1) * Δ)
            (((n : ℚ) - ((i : ℚ) + 1)) * Δ) * Δ
  termination_by i => i
  decreasing_by omega

/-! ### Lemmas about Algorithm 1's state machine -/

/-- The inner loop on row `n` leaves every other row unchanged. -/
theorem innerLoop_frame_row (h lam : ℚ → ℚ → ℚ) (Δ : ℚ) (n m : ℕ)
    (F : ℕ → ℕ → ℚ) (n' i' : ℕ) (hne : n' ≠ n) :
    innerLoop h lam Δ n m F n' i' = F n' i' := by
  induction m with
  | zero => rfl
  | succ m ih =>
      simp only [innerLoop, writeAt]
      rw [if_neg fun hc => hne hc.1]
      exact ih

/-- The first `m` inner iterations write only columns `< m` of row `n`. -/
theorem innerLoop_frame_col (h lam : ℚ → ℚ → ℚ) (Δ : ℚ) (n : ℕ)
    (F : ℕ → ℕ → ℚ) (i' : ℕ) :
    ∀ m, m ≤ i' → innerLoop h lam Δ n m F n i' = F n i' := by
  intro m
  induction m with
  | zero => intro _; rfl
  | succ m ih =>
      intro hm
      simp only [innerLoop, writeAt]
      rw [if_neg (by rintro ⟨-, h2⟩; omega)]
      exact ih (by omega)

/-- If the entries of row `n` below column `i` already hold the
recurrence values, the assignment body of Algorithm 1 produces the
recurrence value at column `i`. -/
theorem loopBody_eq_fhatRec (h lam : ℚ → ℚ → ℚ) (Δ : ℚ) (n i : ℕ)
    (F : ℕ → ℕ → ℚ) (hrow : ∀ j, j < i → F n j = fhatRec h lam Δ n j) :
    loopBody h lam Δ F n i = fhatRec h lam Δ n i := by
  cases i with
  | zero => simp [loopBody, fhatRec]
  | succ j =>
      simp only [loopBody, fhatRec, if_neg (Nat.succ_ne_zero j)]
      have hc : ((j + 1 : ℕ) : ℚ) = (j : ℚ) + 1 := by push_cast; ring
      rw [hc]
      congr 1
      refine Finset.sum_congr rfl fun k hk => ?_
      have hidx : j + 1 - 1 - k = j - k := by omega
      rw [hidx, hrow (j - k) (by omega)]

/-- After `m` inner iterations on row `n`, entry `(n, i)` with `i < m`
holds the recurrence value `fhatRec n i`, whatever the incoming state:
the inner loop reads only entries of row `n` it has itself written. -/
theorem innerLoop_computes (h lam : ℚ → ℚ → ℚ) (Δ : ℚ) (n : ℕ) :
    ∀ (m : ℕ) (F : ℕ → ℕ → ℚ) (i : ℕ), i < m →
      innerLoop h lam Δ n m F n i = fhatRec h lam Δ n i := by
  intro m
  induction m with
  | zero => intro F i hi; exact absurd hi (Nat.not_lt_zero i)
  | succ m ih =>
      intro F i hi
      by_cases him : i = m
      · simp only [innerLoop, writeAt]
        rw [if_pos ⟨trivial, him⟩]
        rw [him]
        exact loopBody_eq_fhatRec h lam Δ n m _ fun j hj => ih F j hj
      · simp only [innerLoop, writeAt]
        rw [if_neg (by rintro ⟨-, h2⟩; exact him h2)]
        exact ih F i (by omega)

/-- After the outer loop has processed rows `0..m−1`, every entry
`(n, i)` with `n < m` and `i ≤ n` holds the recurrence value. -/
theorem outerLoop_computes (h lam : ℚ → ℚ → ℚ) (Δ : ℚ) :
    ∀ (m : ℕ) (F0 : ℕ → ℕ → ℚ) (n i : ℕ), n < m → i ≤ n →
      outerLoop h lam Δ m F0 n i = fhatRec h lam Δ n i := by
  intro m
  induction m with
  | zero => intro F0 n i hn _; exact absurd hn (Nat.not_lt_zero n)
  | succ m ih =>
      intro F0 n i hn hi
      by_cases hnm : n = m
      · subst hnm
        exact innerLoop_computes h lam Δ n (n + 1) _ i (by omega)
      · simp only [outerLoop]
        rw [innerLoop_frame_row h lam Δ m (m + 1) _ n i hnm]
        exact ih F0 n i (by omega) hi

/-- The outer loop writes only entries `(n, i)` with `n < m` and
`i ≤ n`; everything else keeps its initial contents. -/
theorem outerLoop_frame (h lam : ℚ → ℚ → ℚ) (Δ : ℚ) :
    ∀ (m : ℕ) (F0 : ℕ → ℕ → ℚ) (n i : ℕ), m ≤ n ∨ n < i →
      outerLoop h lam Δ m F0 n i = F0 n i := by
  intro m
  induction m with
  | zero => intro F0 n i _; rfl
  | succ m ih =>
      intro F0 n i hcase
      simp only [outerLoop]
      by_cases hnm : n = m
      · subst hnm
        have hni : n < i := by omega
        rw [innerLoop_frame_col h lam Δ n _ i (n + 1) (by omega)]
        exact ih F0 n i (Or.inr hni)
      · rw [innerLoop_frame_row h lam Δ m (m + 1) _ n i hnm]
        exact ih F0 n i (by omega)

/-- The final array of Algorithm 1 agrees with the recurrence on the
meaningful (lower-triangular, `n ≤ N`) region, for any initial state. -/
theorem fhat_eq_fhatRec (h lam : ℚ → ℚ → ℚ) (Δ : ℚ) (N : ℕ)
    (F0 : ℕ → ℕ → ℚ) (n i : ℕ) (hn : n ≤ N) (hi : i ≤ n) :
    fhat h lam Δ N F0 n i = fhatRec h lam Δ n i :=
  outerLoop_computes h lam Δ (N + 1) F0 n i (by omega) hi

/-- Entries outside the meaningful region keep their initial contents. -/
theorem fhat_frame (h lam : ℚ → ℚ → ℚ) (Δ : ℚ) (N : ℕ)
    (F0 : ℕ → ℕ → ℚ) (n i : ℕ) (hcase : N < n ∨ n < i) :
    fhat h lam Δ N F0 n i = F0 n i :=
  outerLoop_frame h lam Δ (N + 1) F0 n i (by omega)

/-! ### Lemmas about Algorithm 2's state machine -/

/-- Iteration `m` of Algorithm 2's loop writes only column `m + 1`. -/
theorem blockRun_stable_succ (h lam : ℚ → ℚ → ℚ) (Δ : ℚ) (N : ℕ)
    (F0 : ℕ → ℕ → ℚ) (m j : ℕ) (hj : j ≤ m) (n : ℕ) :
    blockRun h lam Δ N F0 (m + 1) n j = blockRun h lam Δ N F0 m n j := by
  simp only [blockRun, blockStep]
  rw [if_neg (by rintro ⟨h1, -, -⟩; omega)]

/-- Once column `j` has been written (after `m ≥ j` iterations), later
iterations never change it. -/
theorem blockRun_stable (h lam : ℚ → ℚ → ℚ) (Δ : ℚ) (N : ℕ)
    (F0 : ℕ → ℕ → ℚ) (j n : ℕ) :
    ∀ m m', j ≤ m → m ≤ m' →
      blockRun h lam Δ N F0 m' n j = blockRun h lam Δ N F0 m n j := by
  intro m m'
  induction m' with
  | zero =>
      intro _ h2
      have hm : m = 0 := by omega
      rw [hm]
  | succ m' ih =>
      intro h1 h2
      rcases Nat.lt_or_ge m (m' + 1) with hlt | hge
      · rw [blockRun_stable_succ h lam Δ N F0 m' j (by omega) n]
        exact ih h1 (by omega)
      · have hm : m = m' + 1 := by omega
        rw [hm]

/-- Column 0 of Algorithm 2's array equals column 0 of `H` at every
stage of the loop. -/
theorem blockRun_col_zero (h lam : ℚ → ℚ → ℚ) (Δ : ℚ) (N : ℕ)
    (F0 : ℕ → ℕ → ℚ) (n : ℕ) (hn : n ≤ N) (m : ℕ) :
    blockRun h lam Δ N F0 m n 0 = Hmat h Δ n 0 := by
  rw [blockRun_stable h lam Δ N F0 0 n 0 m (Nat.zero_le 0) (Nat.zero_le m)]
  simp [blockRun, blockInit, hn]

/-- Unfolding iteration `i`: the value written into `F[n, i+1]`. -/
theorem blockRun_col_succ (h lam : ℚ → ℚ → ℚ) (Δ : ℚ) (N : ℕ)
    (F0 : ℕ → ℕ → ℚ) (i n : ℕ) (hin : i + 1 ≤ n) (hnN : n ≤ N) :
    blockRun h lam Δ N F0 (i + 1) n (i + 1) =
      Hmat h Δ n (i + 1) +
        ∑ c ∈ Finset.range (i + 1),
          blockRun h lam Δ N F0 i n c * Lmat lam Δ N (n - (i + 1)) (N - i - 1 + c) := by
  simp only [blockRun, blockStep]
  rw [if_pos ⟨trivial, hin, hnN⟩]

/-- Strictly-upper-triangular entries are never written by Algorithm 2. -/
theorem blockRun_frame (h lam : ℚ → ℚ → ℚ) (Δ : ℚ) (N : ℕ)
    (F0 : ℕ → ℕ → ℚ) : ∀ (m n j : ℕ), n < j →
    blockRun h lam Δ N F0 m n j = F0 n j := by
  intro m
  induction m with
  | zero =>
      intro n j hnj
      simp only [blockRun, blockInit]
      rw [if_neg (by rintro ⟨h1, -⟩; omega)]
  | succ m ih =>
      intro n j hnj
      simp only [blockRun, blockStep]
      rw [if_neg (by rintro ⟨h1, h2, -⟩; omega)]
      exact ih n j hnj

/-- The final array of Algorithm 2 agrees with the recurrence on the
meaningful region `i ≤ n ≤ N`, for any initial array contents: the
column update of iteration `i` sums exactly the same products as the
scalar convolution sum of the recurrence. -/
theorem blockRun_computes (h lam : ℚ → ℚ → ℚ) (Δ : ℚ) (N : ℕ)
    (F0 : ℕ → ℕ → ℚ) :
    ∀ (i n : ℕ), i ≤ n → n ≤ N →
      blockRun h lam Δ N F0 N n i = fhatRec h lam Δ n i := by
  intro i
  induction i using Nat.strong_induction_on with
  | _ i ih =>
    intro n hin hnN
    cases i with
    | zero =>
        rw [blockRun_col_zero h lam Δ N F0 n hnN N]
        simp [Hmat, fhatRec, abs_of_nonneg (Nat.cast_nonneg n : (0:ℚ) ≤ n)]
    | succ i =>
        have hiN : i + 1 ≤ N := le_trans hin hnN
        rw [blockRun_stable h lam Δ N F0 (i + 1) n (i + 1) N (le_refl _) hiN]
        rw [blockRun_col_succ h lam Δ N F0 i n hin hnN]
        have hXcast : ((n - (i + 1) : ℕ) : ℚ) = (n : ℚ) - ((i : ℚ) + 1) := by
          rw [Nat.cast_sub hin]; push_cast; ring
        have hsum1 : ∀ c ∈ Finset.range (i + 1),
            blockRun h lam Δ N F0 i n c * Lmat lam Δ N (n - (i + 1)) (N - i - 1 + c)
              = fhatRec h lam Δ n c *
                  lam (((i : ℚ) + 1 - (c : ℚ)) * Δ) (((n : ℚ) - ((i : ℚ) + 1)) * Δ) * Δ := by
          intro c hc
          have hc' : c ≤ i := by
            have := Finset.mem_range.mp hc; omega
          have hval : blockRun h lam Δ N F0 i n c = fhatRec h lam Δ n c := by
            rw [← blockRun_stable h lam Δ N F0 c n i N (by omega) (by omega)]
            · exact ih c (by omega) n (by omega) hnN
          have hLcol : N - i - 1 + c = N - (i + 1) + c := by omega
          have hLcast : ((N - (i + 1) + c : ℕ) : ℚ) = (N : ℚ) - ((i : ℚ) + 1) + (c : ℚ) := by
            rw [Nat.cast_add, Nat.cast_sub hiN]; push_cast; ring
          have hLarg : (N : ℚ) - ((N - (i + 1) + c : ℕ) : ℚ) = (i : ℚ) + 1 - (c : ℚ) := by
            rw [hLcast]; ring
          rw [hval, Lmat, hLcol, hLarg, hXcast]
          ring
        rw [Finset.sum_congr rfl hsum1]
        have habs : |(n : ℚ) - ((i + 1 : ℕ) : ℚ)| = (n : ℚ) - ((i : ℚ) + 1) := by
          rw [abs_of_nonneg (by
            rw [sub_nonneg]
            exact_mod_cast hin)]
          push_cast; ring
        have hrefl :
            ∑ c ∈ Finset.range (i + 1),
              fhatRec h lam Δ n c *
                lam (((i : ℚ) + 1 - (c : ℚ)) * Δ) (((n : ℚ) - ((i : ℚ) + 1)) * Δ) * Δ
            = ∑ k ∈ Finset.range (i + 1),
                fhatRec h lam Δ n (i - k) *
                  lam (((k : ℚ) + 1) * Δ) (((n : ℚ) - ((i : ℚ) + 1)) * Δ) * Δ := by
          rw [← Finset.sum_range_reflect (fun c =>
            fhatRec h lam Δ n c *
              lam (((i : ℚ) + 1 - (c : ℚ)) * Δ) (((n : ℚ) - ((i : ℚ) + 1)) * Δ) * Δ) (i + 1)]
          refine Finset.sum_congr rfl fun j hj => ?_
          have hj' : j ≤ i := by
            have := Finset.mem_range.mp hj; omega
          have hidx : i + 1 - 1 - j = i - j := by omega
          have hcast : (i : ℚ) + 1 - ((i - j : ℕ) : ℚ) = (j : ℚ) + 1 := by
            rw [Nat.cast_sub hj']; ring
          rw [hidx, hcast]
        rw [hrefl]
        simp only [fhatRec, Hmat, habs]

/-! ### Result-vector corollaries -/

/-- The result vector of Algorithm 1 is the diagonal of the recurrence. -/
theorem f_loop_eq_fhatRec (h lam : ℚ → ℚ → ℚ) (Δ : ℚ) (N n : ℕ) (hn : n ≤ N) :
    f_loop h lam Δ N n = fhatRec h lam Δ n n :=
  fhat_eq_fhatRec h lam Δ N zeroArr n n hn (le_refl n)

/-- The result vector of Algorithm 2 is the diagonal of the recurrence. -/
theorem f_vec_eq_fhatRec (h lam : ℚ → ℚ → ℚ) (Δ : ℚ) (N n : ℕ) (hn : n ≤ N) :
    f_vec h lam Δ N n = fhatRec h lam Δ n n :=
  blockRun_computes h lam Δ N zeroArr n n (le_refl n) hn

/-- With an identically-zero hazard kernel the convolution sum
vanishes, and the diagonal reduces to the forcing term at lag 0. -/
theorem fhatRec_diag_zero_lam (h lam : ℚ → ℚ → ℚ) (Δ : ℚ)
    (hlam : ∀ u t, lam u t = 0) (n : ℕ) :
    fhatRec h lam Δ n n = h ((n : ℚ) * Δ) 0 := by
  cases n with
  | zero => simp [fhatRec]
  | succ m =>
      simp only [fhatRec]
      simp only [hlam, mul_zero, zero_mul, Finset.sum_const_zero, add_zero]
      have harg : (((m + 1 : ℕ) : ℚ) - ((m : ℚ) + 1)) * Δ = 0 := by push_cast; ring
      rw [harg]

/-- The recurrence at `i = j + 1`, with the convolution sum written as
`Δ · Σ_{k=1..j+1}` over the closed interval, as the spec states it. -/
theorem fhatRec_succ_Icc (h lam : ℚ → ℚ → ℚ) (Δ : ℚ) (n j : ℕ) :
    fhatRec h lam Δ n (j + 1)
      = h ((n : ℚ) * Δ) (((n : ℚ) - ((j : ℚ) + 1)) * Δ)
        + Δ * ∑ k ∈ Finset.Icc 1 (j + 1),
            fhatRec h lam Δ n (j + 1 - k) *
              lam ((k : ℚ) * Δ) (((n : ℚ) - ((j : ℚ) + 1)) * Δ) := by
  simp only [fhatRec]
  congr 1
  rw [Finset.mul_sum, ← Nat.Ico_succ_right, Finset.sum_Ico_eq_sum_range]
  simp only [Nat.succ_sub_one, Nat.add_sub_cancel]
  refine Finset.sum_congr rfl fun k hk => ?_
  have hidx : j + 1 - (1 + k) = j - k := by omega
  rw [hidx]
  push_cast
  ring_nf

/-- The final array of Algorithm 2 agrees with the recurrence on the
meaningful region. -/
theorem Fmat_eq_fhatRec (h lam : ℚ → ℚ → ℚ) (Δ : ℚ) (N : ℕ)
    (F0 : ℕ → ℕ → ℚ) (n i : ℕ) (hi : i ≤ n) (hn : n ≤ N) :
    Fmat h lam Δ N F0 n i = fhatRec h lam Δ n i :=
  blockRun_computes h lam Δ N F0 i n hi hn

/-- Strictly-upper entries of Algorithm 2's final array are untouched. -/
theorem Fmat_frame (h lam : ℚ → ℚ → ℚ) (Δ : ℚ) (N : ℕ)
    (F0 : ℕ → ℕ → ℚ) (n j : ℕ) (hnj : n < j) :
    Fmat h lam Δ N F0 n j = F0 n j :=
  blockRun_frame h lam Δ N F0 N n j hnj

/-! ### Claim theorems -/

/-- C1: for every horizon `T > 0`, step count `N ≥ 1` and kernel
functions `h`, `λ`, the result vector `f_vec` of Algorithm 2 equals
elementwise the result vector `f_loop` of Algorithm 1; over the
exact-arithmetic (`ℚ`) embedding the two diagonals are exactly equal. -/
theorem alg2_diagonal_eq_alg1_diagonal (h lam : ℚ → ℚ → ℚ) (T : ℚ) (N : ℕ)
    (hT : 0 < T) (hN : 1 ≤ N) (n : ℕ) (hn : n ≤ N) :
    f_vec h lam (T / (N : ℚ)) N n = f_loop h lam (T / (N : ℚ)) N n := by
  rw [f_vec_eq_fhatRec h lam (T / (N : ℚ)) N n hn,
    f_loop_eq_fhatRec h lam (T / (N : ℚ)) N n hn]

/-- Witness for C1: `T = 2`, `N = 2`, `h(t,τ) = t`, `λ ≡ 1`, `n = 2`. -/
theorem alg2_diagonal_eq_alg1_diagonal_witness :
    0 < (2 : ℚ) ∧ 1 ≤ (2 : ℕ) ∧ (2 : ℕ) ≤ 2 ∧
      f_vec (fun t _ => t) (fun _ _ => 1) ((2 : ℚ) / ((2 : ℕ) : ℚ)) 2 2
        = f_loop (fun t _ => t) (fun _ _ => 1) ((2 : ℚ) / ((2 : ℕ) : ℚ)) 2 2 :=
  ⟨by norm_num, by norm_num, by norm_num,
    alg2_diagonal_eq_alg1_diagonal (fun t _ => t) (fun _ _ => 1) 2 2
      (by norm_num) (by norm_num) 2 (by norm_num)⟩

/-- C2: Algorithm 1 computes `F[n][0] = h(n·Δ, n·Δ)` and, for
`1 ≤ i ≤ n`, `F[n][i] = h(n·Δ, (n−i)·Δ) + Δ · Σ_{k=1..i} F[n][i−k] ·
λ(k·Δ, (n−i)·Δ)`, and its result vector is the diagonal `F[n][n]`. -/
theorem directSolver_recurrence (h lam : ℚ → ℚ → ℚ) (T : ℚ) (N : ℕ)
    (hT : 0 < T) (hN : 1 ≤ N) (n : ℕ) (hn : n ≤ N) :
    fhat h lam (T / (N : ℚ)) N zeroArr n 0
        = h ((n : ℚ) * (T / (N : ℚ))) ((n : ℚ) * (T / (N : ℚ)))
    ∧ (∀ i, 1 ≤ i → i ≤ n →
        fhat h lam (T / (N : ℚ)) N zeroArr n i
          = h ((n : ℚ) * (T / (N : ℚ))) (((n : ℚ) - (i : ℚ)) * (T / (N : ℚ)))
            + (T / (N : ℚ)) *
              ∑ k ∈ Finset.Icc 1 i,
                fhat h lam (T / (N : ℚ)) N zeroArr n (i - k) *
                  lam ((k : ℚ) * (T / (N : ℚ)))
                    (((n : ℚ) - (i : ℚ)) * (T / (N : ℚ))))
    ∧ f_loop h lam (T / (N : ℚ)) N n = fhat h lam (T / (N : ℚ)) N zeroArr n n := by
  refine ⟨?_, ?_, rfl⟩
  · rw [fhat_eq_fhatRec h lam (T / (N : ℚ)) N zeroArr n 0 hn (Nat.zero_le n)]
    simp [fhatRec]
  · intro i h1 hi
    obtain ⟨j, rfl⟩ : ∃ j, i = j + 1 := ⟨i - 1, by omega⟩
    rw [fhat_eq_fhatRec h lam (T / (N : ℚ)) N zeroArr n (j + 1) hn hi,
      fhatRec_succ_Icc]
    have hc : ((j + 1 : ℕ) : ℚ) = (j : ℚ) + 1 := by push_cast; ring
    rw [hc]
    congr 1
    congr 1
    refine Finset.sum_congr rfl fun k hk => ?_
    have hk' := Finset.mem_Icc.mp hk
    rw [fhat_eq_fhatRec h lam (T / (N : ℚ)) N zeroArr n (j + 1 - k) hn (by omega)]

/-- Witness for C2: `T = 2`, `N = 2`, `h(t,τ) = t`, `λ ≡ 1`, `n = 2`. -/
theorem directSolver_recurrence_witness :
    0 < (2 : ℚ) ∧ 1 ≤ (2 : ℕ) ∧ (2 : ℕ) ≤ 2 ∧
      f_loop (fun t _ => t) (fun _ _ => 1) ((2 : ℚ) / ((2 : ℕ) : ℚ)) 2 2
        = fhat (fun t _ => t) (fun _ _ => 1) ((2 : ℚ) / ((2 : ℕ) : ℚ)) 2 zeroArr 2 2 :=
  ⟨by norm_num, by norm_num, by norm_num,
    (directSolver_recurrence (fun t _ => t) (fun _ _ => 1) 2 2
      (by norm_num) (by norm_num) 2 (by norm_num)).2.2⟩

/-- C4 counterexample: with `T = 1`, `N = 1` (so `Δ = 1`), forcing
kernel `h(t,τ) = τ` and hazard `λ ≡ 0`, the result vector of
Algorithm 1 at `n = 1` is `h(Δ, 0·Δ) = 0`, while the claimed value
`h(n·Δ, n·Δ) = h(1, 1) = 1`: the claim is false as stated. -/
theorem degenerate_kernel_cex :
    f_loop (fun _ t => t) (fun _ _ => 0) ((1 : ℚ) / ((1 : ℕ) : ℚ)) 1 1
      ≠ (fun (_ t : ℚ) => t) (((1 : ℕ) : ℚ) * ((1 : ℚ) / ((1 : ℕ) : ℚ)))
          (((1 : ℕ) : ℚ) * ((1 : ℚ) / ((1 : ℕ) : ℚ))) := by
  have hL : f_loop (fun _ t => t) (fun _ _ => 0) ((1 : ℚ) / ((1 : ℕ) : ℚ)) 1 1 = 0 := by
    rw [f_loop_eq_fhatRec _ _ _ 1 1 (le_refl 1),
      fhatRec_diag_zero_lam _ _ _ (fun _ _ => rfl) 1]
  rw [hL]
  norm_num

/-- C4 amended: if the hazard kernel is identically zero, both result
vectors satisfy `ResultVector[n] = h(n·Δ, 0)` exactly: the convolution
term vanishes and the diagonal entry is the forcing term at lag 0 (the
claim's `h(n·Δ, n·Δ)` is the base entry `F[n][0]`, not the diagonal). -/
theorem degenerate_kernel_amended (h lam : ℚ → ℚ → ℚ) (T : ℚ) (N : ℕ)
    (hT : 0 < T) (hN : 1 ≤ N) (hlam : ∀ u t, lam u t = 0) (n : ℕ) (hn : n ≤ N) :
    f_loop h lam (T / (N : ℚ)) N n = h ((n : ℚ) * (T / (N : ℚ))) 0
    ∧ f_vec h lam (T / (N : ℚ)) N n = h ((n : ℚ) * (T / (N : ℚ))) 0 := by
  constructor
  · rw [f_loop_eq_fhatRec h lam (T / (N : ℚ)) N n hn,
      fhatRec_diag_zero_lam h lam (T / (N : ℚ)) hlam n]
  · rw [f_vec_eq_fhatRec h lam (T / (N : ℚ)) N n hn,
      fhatRec_diag_zero_lam h lam (T / (N : ℚ)) hlam n]

/-- Witness for the amended C4: `T = 3`, `N = 2`, `h(t,τ) = t + 1`,
`λ ≡ 0`, `n = 2`. -/
theorem degenerate_kernel_amended_witness :
    0 < (3 : ℚ) ∧ 1 ≤ (2 : ℕ) ∧ (∀ u t : ℚ, (fun _ _ => (0 : ℚ)) u t = 0) ∧ (2 : ℕ) ≤ 2 ∧
      f_loop (fun t _ => t + 1) (fun _ _ => 0) ((3 : ℚ) / ((2 : ℕ) : ℚ)) 2 2
        = (fun (t _ : ℚ) => t + 1) (((2 : ℕ) : ℚ) * ((3 : ℚ) / ((2 : ℕ) : ℚ))) 0 :=
  ⟨by norm_num, by norm_num, fun _ _ => rfl, by norm_num,
    (degenerate_kernel_amended (fun t _ => t + 1) (fun _ _ => 0) 3 2
      (by norm_num) (by norm_num) (fun _ _ => rfl) 2 (by norm_num)).1⟩

/-- C5: the computation of row `n` in Algorithm 1 reads only row `n`
itself: running the inner loop for row `n` from any two states (which
may differ arbitrarily in all other rows, or reflect any processing
order of the other rows) produces identical row-`n` values, and these
values are exactly the row-`n` values of the actual final array. -/
theorem directSolver_row_independence (h lam : ℚ → ℚ → ℚ) (Δ : ℚ) (N : ℕ)
    (F G : ℕ → ℕ → ℚ) (n i : ℕ) (hi : i ≤ n) (hn : n ≤ N) :
    innerLoop h lam Δ n (n + 1) F n i = innerLoop h lam Δ n (n + 1) G n i
    ∧ innerLoop h lam Δ n (n + 1) F n i = fhat h lam Δ N zeroArr n i := by
  have hF := innerLoop_computes h lam Δ n (n + 1) F i (by omega)
  have hG := innerLoop_computes h lam Δ n (n + 1) G i (by omega)
  have hA := fhat_eq_fhatRec h lam Δ N zeroArr n i hn hi
  exact ⟨hF.trans hG.symm, hF.trans hA.symm⟩

/-- Witness for C5: `Δ = 1`, `N = 2`, row `n = 2`, two states that
differ everywhere outside row 2 (all-zero versus all-seven). -/
theorem directSolver_row_independence_witness :
    (2 : ℕ) ≤ 2 ∧ (2 : ℕ) ≤ 2 ∧
      innerLoop (fun t _ => t) (fun _ _ => 1) 1 2 3 zeroArr 2 2
        = innerLoop (fun t _ => t) (fun _ _ => 1) 1 2 3 (fun _ _ => 7) 2 2 :=
  ⟨le_refl 2, le_refl 2,
    (directSolver_row_independence (fun t _ => t) (fun _ _ => 1) 1 2
      zeroArr (fun _ _ => 7) 2 2 (le_refl 2) (le_refl 2)).1⟩

/-- C8: with `N = 4`, `T = 4` (so `Δ = 1`), constant forcing kernel
`h ≡ 1` and zero hazard kernel `λ ≡ 0`, both algorithms produce
exactly the result vector `[1, 1, 1, 1, 1]`. -/
theorem concrete_scenario_all_ones :
    f_loop (fun _ _ => 1) (fun _ _ => 0) ((4 : ℚ) / 4) 4 0 = 1
    ∧ f_loop (fun _ _ => 1) (fun _ _ => 0) ((4 : ℚ) / 4) 4 1 = 1
    ∧ f_loop (fun _ _ => 1) (fun _ _ => 0) ((4 : ℚ) / 4) 4 2 = 1
    ∧ f_loop (fun _ _ => 1) (fun _ _ => 0) ((4 : ℚ) / 4) 4 3 = 1
    ∧ f_loop (fun _ _ => 1) (fun _ _ => 0) ((4 : ℚ) / 4) 4 4 = 1
    ∧ f_vec (fun _ _ => 1) (fun _ _ => 0) ((4 : ℚ) / 4) 4 0 = 1
    ∧ f_vec (fun _ _ => 1) (fun _ _ => 0) ((4 : ℚ) / 4) 4 1 = 1
    ∧ f_vec (fun _ _ => 1) (fun _ _ => 0) ((4 : ℚ) / 4) 4 2 = 1
    ∧ f_vec (fun _ _ => 1) (fun _ _ => 0) ((4 : ℚ) / 4) 4 3 = 1
    ∧ f_vec (fun _ _ => 1) (fun _ _ => 0) ((4 : ℚ) / 4) 4 4 = 1 := by
  have kL : ∀ n, n ≤ 4 →
      f_loop (fun _ _ => 1) (fun _ _ => 0) ((4 : ℚ) / 4) 4 n = 1 := by
    intro n hn
    rw [f_loop_eq_fhatRec _ _ _ 4 n hn,
      fhatRec_diag_zero_lam _ _ _ (fun _ _ => rfl) n]
  have kV : ∀ n, n ≤ 4 →
      f_vec (fun _ _ => 1) (fun _ _ => 0) ((4 : ℚ) / 4) 4 n = 1 := by
    intro n hn
    rw [f_vec_eq_fhatRec _ _ _ 4 n hn,
      fhatRec_diag_zero_lam _ _ _ (fun _ _ => rfl) n]
  exact ⟨kL 0 (by norm_num), kL 1 (by norm_num), kL 2 (by norm_num),
    kL 3 (by norm_num), kL 4 (by norm_num), kV 0 (by norm_num),
    kV 1 (by norm_num), kV 2 (by norm_num), kV 3 (by norm_num),
    kV 4 (by norm_num)⟩

/-- C9: for every valid input, both result vectors start with
`ResultVector[0] = h(0, 0)` exactly: there is no convolution term at
the first grid point. -/
theorem result_vector_at_zero (h lam : ℚ → ℚ → ℚ) (T : ℚ) (N : ℕ)
    (hT : 0 < T) (hN : 1 ≤ N) :
    f_loop h lam (T / (N : ℚ)) N 0 = h 0 0
    ∧ f_vec h lam (T / (N : ℚ)) N 0 = h 0 0 := by
  constructor
  · rw [f_loop_eq_fhatRec h lam (T / (N : ℚ)) N 0 (Nat.zero_le N)]
    simp [fhatRec]
  · rw [f_vec_eq_fhatRec h lam (T / (N : ℚ)) N 0 (Nat.zero_le N)]
    simp [fhatRec]

/-- Witness for C9: `T = 5`, `N = 3`, `h(t,τ) = t·τ + 2`, `λ(u,τ) = u`. -/
theorem result_vector_at_zero_witness :
    0 < (5 : ℚ) ∧ 1 ≤ (3 : ℕ) ∧
      f_loop (fun t u => t * u + 2) (fun u _ => u) ((5 : ℚ) / ((3 : ℕ) : ℚ)) 3 0
        = (fun (t u : ℚ) => t * u + 2) 0 0 :=
  ⟨by norm_num, by norm_num,
    (result_vector_at_zero (fun t u => t * u + 2) (fun u _ => u) 5 3
      (by norm_num) (by norm_num)).1⟩

/-- C10: after either algorithm has run, every strictly-upper entry
(`n < j`, both indices within the array) still holds its initial value
0, and neither algorithm's diagonal depends on the initial contents of
the working array (in particular not on the strictly-upper region):
running either algorithm from any two initial arrays gives the same
diagonal. -/
theorem upper_triangle_preserved (h lam : ℚ → ℚ → ℚ) (Δ : ℚ) (N : ℕ) :
    (∀ n j, n ≤ N → j ≤ N → n < j →
        fhat h lam Δ N zeroArr n j = 0 ∧ Fmat h lam Δ N zeroArr n j = 0)
    ∧ (∀ F0 G0 : ℕ → ℕ → ℚ, ∀ n, n ≤ N →
        fhat h lam Δ N F0 n n = fhat h lam Δ N G0 n n
        ∧ Fmat h lam Δ N F0 n n = Fmat h lam Δ N G0 n n) := by
  constructor
  · intro n j _ _ hnj
    exact ⟨fhat_frame h lam Δ N zeroArr n j (Or.inr hnj),
      Fmat_frame h lam Δ N zeroArr n j hnj⟩
  · intro F0 G0 n hn
    constructor
    · rw [fhat_eq_fhatRec h lam Δ N F0 n n hn (le_refl n),
        fhat_eq_fhatRec h lam Δ N G0 n n hn (le_refl n)]
    · rw [Fmat_eq_fhatRec h lam Δ N F0 n n (le_refl n) hn,
        Fmat_eq_fhatRec h lam Δ N G0 n n (le_refl n) hn]

/-- Witness for C10: `Δ = 1`, `N = 1`, entry `(0, 1)` and two initial
arrays (zeros versus all-nine). -/
theorem upper_triangle_preserved_witness :
    ((0 : ℕ) ≤ 1 ∧ (1 : ℕ) ≤ 1 ∧ (0 : ℕ) < 1 ∧
        fhat (fun t _ => t) (fun _ _ => 1) 1 1 zeroArr 0 1 = 0
        ∧ Fmat (fun t _ => t) (fun _ _ => 1) 1 1 zeroArr 0 1 = 0)
    ∧ ((1 : ℕ) ≤ 1 ∧
        fhat (fun t _ => t) (fun _ _ => 1) 1 1 zeroArr 1 1
          = fhat (fun t _ => t) (fun _ _ => 1) 1 1 (fun _ _ => 9) 1 1) :=
  ⟨⟨Nat.zero_le 1, le_refl 1, Nat.zero_lt_one,
      (upper_triangle_preserved (fun t _ => t) (fun _ _ => 1) 1 1).1 0 1
        (Nat.zero_le 1) (le_refl 1) Nat.zero_lt_one⟩,
    ⟨le_refl 1,
      ((upper_triangle_preserved (fun t _ => t) (fun _ _ => 1) 1 1).2 zeroArr
        (fun _ _ => 9) 1 (le_refl 1)).1⟩⟩

/-- C3: Algorithm 2 sets column 0 of `F` to column 0 of `H` and, for
`i = 0..N−1`, computes column `i+1` restricted to rows `i+1..N` as
`F[i+1:, i+1] = H[i+1:, i+1] + rowwise_sum(F[i+1:, 0:i+1] ⊙
L[0:N−i, N−i−1:N])`, where `H[n][i] = h(n·Δ, (n−i)·Δ)` on the
meaningful region `i ≤ n` and the sliced window of the Δ-scaled hazard
matrix `L` supplies `λ((i+1−c)·Δ, (n−i−1)·Δ)·Δ` at prefix column `c`. -/
theorem blockSolver_column_recursion (h lam : ℚ → ℚ → ℚ) (T : ℚ) (N : ℕ)
    (hT : 0 < T) (hN : 1 ≤ N) :
    (∀ n, n ≤ N →
        Fmat h lam (T / (N : ℚ)) N zeroArr n 0 = Hmat h (T / (N : ℚ)) n 0)
    ∧ (∀ i n, i < N → i + 1 ≤ n → n ≤ N →
        Fmat h lam (T / (N : ℚ)) N zeroArr n (i + 1)
          = Hmat h (T / (N : ℚ)) n (i + 1)
            + ∑ c ∈ Finset.range (i + 1),
                Fmat h lam (T / (N : ℚ)) N zeroArr n c *
                  Lmat lam (T / (N : ℚ)) N (n - (i + 1)) (N - i - 1 + c))
    ∧ (∀ n i, i ≤ n →
        Hmat h (T / (N : ℚ)) n i
          = h ((n : ℚ) * (T / (N : ℚ))) (((n : ℚ) - (i : ℚ)) * (T / (N : ℚ))))
    ∧ (∀ i c n, c ≤ i → i < N → i + 1 ≤ n →
        Lmat lam (T / (N : ℚ)) N (n - (i + 1)) (N - i - 1 + c)
          = lam (((i : ℚ) + 1 - (c : ℚ)) * (T / (N : ℚ)))
              (((n : ℚ) - ((i : ℚ) + 1)) * (T / (N : ℚ))) * (T / (N : ℚ))) := by
  refine ⟨?_, ?_, ?_, ?_⟩
  · intro n hn
    exact blockRun_col_zero h lam (T / (N : ℚ)) N zeroArr n hn N
  · intro i n hiN hin hnN
    have hL : Fmat h lam (T / (N : ℚ)) N zeroArr n (i + 1)
        = blockRun h lam (T / (N : ℚ)) N zeroArr (i + 1) n (i + 1) :=
      blockRun_stable h lam (T / (N : ℚ)) N zeroArr (i + 1) n (i + 1) N
        (le_refl _) (by omega)
    rw [hL, blockRun_col_succ h lam (T / (N : ℚ)) N zeroArr i n hin hnN]
    congr 1
    refine Finset.sum_congr rfl fun c hc => ?_
    have hc' : c ≤ i := by
      have := Finset.mem_range.mp hc; omega
    have hval : blockRun h lam (T / (N : ℚ)) N zeroArr i n c
        = Fmat h lam (T / (N : ℚ)) N zeroArr n c :=
      (blockRun_stable h lam (T / (N : ℚ)) N zeroArr c n i N hc' (by omega)).symm
    rw [hval]
  · intro n i hin
    simp only [Hmat]
    have hnn : (0 : ℚ) ≤ (n : ℚ) - (i : ℚ) := by
      rw [sub_nonneg]
      exact_mod_cast hin
    rw [abs_of_nonneg hnn]
  · intro i c n hci hiN hin
    simp only [Lmat]
    have h1 : ((N - i - 1 + c : ℕ) : ℚ) = (N : ℚ) - ((i : ℚ) + 1) + (c : ℚ) := by
      have e : N - i - 1 + c = N - (i + 1) + c := by omega
      rw [e, Nat.cast_add, Nat.cast_sub (by omega : i + 1 ≤ N)]
      push_cast; ring
    have h2 : ((n - (i + 1) : ℕ) : ℚ) = (n : ℚ) - ((i : ℚ) + 1) := by
      rw [Nat.cast_sub hin]; push_cast; ring
    rw [h1, h2]
    have h3 : (N : ℚ) - ((N : ℚ) - ((i : ℚ) + 1) + (c : ℚ))
        = (i : ℚ) + 1 - (c : ℚ) := by ring
    rw [h3]

/-- Witness for C3: `T = 3`, `N = 3`, `h(t,τ) = t`, `λ ≡ 1`, applied at
iteration `i = 1`, row `n = 2`. -/
theorem blockSolver_column_recursion_witness :
    0 < (3 : ℚ) ∧ 1 ≤ (3 : ℕ) ∧ (1 : ℕ) < 3 ∧ 1 + 1 ≤ (2 : ℕ) ∧ (2 : ℕ) ≤ 3 ∧
      Fmat (fun t _ => t) (fun _ _ => 1) ((3 : ℚ) / ((3 : ℕ) : ℚ)) 3 zeroArr 2 (1 + 1)
        = Hmat (fun t _ => t) ((3 : ℚ) / ((3 : ℕ) : ℚ)) 2 (1 + 1)
          + ∑ c ∈ Finset.range (1 + 1),
              Fmat (fun t _ => t) (fun _ _ => 1) ((3 : ℚ) / ((3 : ℕ) : ℚ)) 3 zeroArr 2 c *
                Lmat (fun _ _ => 1) ((3 : ℚ) / ((3 : ℕ) : ℚ)) 3 (2 - (1 + 1)) (3 - 1 - 1 + c) :=
  ⟨by norm_num, by norm_num, by norm_num, by norm_num, by norm_num,
    (blockSolver_column_recursion (fun t _ => t) (fun _ _ => 1) 3 3
      (by norm_num) (by norm_num)).2.1 1 2 (by norm_num) (by norm_num) (by norm_num)⟩

/-! ### Modelled components: grid validation and shape checking

The notebook hard-codes `N = 500` and `Delta = 100 / N` (cell-8) and
contains no validation, assertion or exception-raising code; the error
paths below are modelled from the spec (§4.1, §4.4, §7). -/

/-- Modelled from the spec: the fatal error taxonomy of §7
(`ConfigurationError`, `ShapeMismatchError`). -/
inductive SolverError
  | configurationError
  | shapeMismatchError

/-- Modelled from the spec: GridBuilder (§4.1) — inputs horizon `T` and
step count `N`; outputs `Δ = T/N` and the grid `{0, Δ, 2Δ, …, NΔ}`;
non-positive `N` or `T` is a fatal `ConfigurationError` raised before
any computation starts. -/
def buildGrid (T : ℚ) (N : ℤ) : Except SolverError (ℚ × List ℚ) :=
  if N ≤ 0 ∨ T ≤ 0 then Except.error SolverError.configurationError
  else Except.ok (T / (N : ℚ),
    (List.range (N.toNat + 1)).map fun i => (i : ℚ) * (T / (N : ℚ)))

/-- C6: for every non-positive step count or non-positive horizon the
grid builder raises the fatal `ConfigurationError`, and no grid (hence
no partial result vector) is ever produced. -/
theorem configuration_error_on_invalid (T : ℚ) (N : ℤ)
    (hbad : N ≤ 0 ∨ T ≤ 0) :
    buildGrid T N = Except.error SolverError.configurationError
    ∧ ∀ g : ℚ × List ℚ, buildGrid T N ≠ Except.ok g := by
  have hgr : buildGrid T N = Except.error SolverError.configurationError := by
    unfold buildGrid
    rw [if_pos hbad]
  refine ⟨hgr, fun g hok => ?_⟩
  rw [hgr] at hok
  exact Except.noConfusion hok

/-- Witness for C6: `T = −1`, `N = 5`. -/
theorem configuration_error_on_invalid_witness :
    ((5 : ℤ) ≤ 0 ∨ (-1 : ℚ) ≤ 0) ∧
      buildGrid (-1) 5 = Except.error SolverError.configurationError :=
  ⟨Or.inr (by norm_num),
    (configuration_error_on_invalid (-1) 5 (Or.inr (by norm_num))).1⟩

/-- The number of indices selected by the numpy basic slice `a:b`
(with `0 ≤ a ≤ b`) on an axis of length `d`: out-of-range bounds are
clipped to the axis length, never an error. -/
def sliceLen (d a b : ℕ) : ℕ := min b d - min a d

/-- Shape of the prefix slice `F[(i+1):(N+1), 0:(i+1)]` of the
`(N+1) × (N+1)` array `F` at loop iteration `i` of Algorithm 2. -/
def shapeFslice (N i : ℕ) : ℕ × ℕ :=
  (sliceLen (N + 1) (i + 1) (N + 1), sliceLen (N + 1) 0 (i + 1))

/-- Shape of the window slice `L[0:(N−i), (N−i−1):(N+1)]` of the
`N × N` array `L` at loop iteration `i` of Algorithm 2. -/
def shapeLwindow (N i : ℕ) : ℕ × ℕ :=
  (sliceLen N 0 (N - i), sliceLen N (N - i - 1) (N + 1))

/-- Modelled from the spec: the defensive shape assertion of §4.4/§7 —
in the notebook numpy's elementwise product itself enforces equal
shapes; here the check is explicit and returns `ShapeMismatchError` on
inconsistency. -/
def shapeCheck (N i : ℕ) : Except SolverError Unit :=
  if shapeFslice N i = shapeLwindow N i then Except.ok ()
  else Except.error SolverError.shapeMismatchError

/-- C7: for `N ≥ 1` and every loop iteration `i = 0..N−1`, the prefix
slice of `F` and the window slice of `L` have equal shape
`(N−i) × (i+1)`; the shape check passes and the mismatch branch is
unreachable. -/
theorem slice_shapes_always_match (N i : ℕ) (hN : 1 ≤ N) (hi : i < N) :
    shapeFslice N i = shapeLwindow N i
    ∧ shapeFslice N i = (N - i, i + 1)
    ∧ shapeCheck N i = Except.ok () := by
  have h1 : shapeFslice N i = (N - i, i + 1) := by
    simp only [shapeFslice, sliceLen, Prod.mk.injEq]
    omega
  have h2 : shapeLwindow N i = (N - i, i + 1) := by
    simp only [shapeLwindow, sliceLen, Prod.mk.injEq]
    omega
  have h12 : shapeFslice N i = shapeLwindow N i := h1.trans h2.symm
  refine ⟨h12, h1, ?_⟩
  unfold shapeCheck
  rw [if_pos h12]

/-- Witness for C7: `N = 3`, `i = 1`. -/
theorem slice_shapes_always_match_witness :
    1 ≤ (3 : ℕ) ∧ (1 : ℕ) < 3 ∧ shapeFslice 3 1 = shapeLwindow 3 1 :=
  ⟨by norm_num, by norm_num,
    (slice_shapes_always_match 3 1 (by norm_num) (by norm_num)).1⟩

end IntegralEq
